import Mathlib

/-!
Verification of the clipboard-history core of `banzai`
(`src/src-tauri/src/lib.rs`): the persisted history store
(`save_entry`, `load_history`, `clear_history`, `get_history`), the
line-oriented JSON codec used for persistence, the clipboard sampling
loop (`start_clipboard_monitor`), and the `copy_to_clipboard` command.
-/

namespace Banzai

/-- A recorded clipboard item: `ClipboardEntry` in `lib.rs` (lines 19-23).
`timestamp` is a `chrono::DateTime<Local>`; chrono serializes it as an
RFC 3339 string and parses that string back to an equal instant, so the
model identifies a timestamp with its serialized rendering (a `String`).
The store logic never inspects timestamps. `content` is the copied text. -/
structure ClipboardEntry where
  timestamp : String
  content : String
deriving DecidableEq, Repr

/-- `MAX_HISTORY_ENTRIES` in `lib.rs` (line 25). -/
def MAX_HISTORY_ENTRIES : Nat := 100

/-!
## EntryCodec

`save_entry` writes each entry with `serde_json::to_string` followed by a
newline (`lib.rs` lines 96-99); `load_history` reads the file line by line
and parses each line with `serde_json::from_str` (lines 110-115).  The
model embeds serde_json's behaviour on this two-string-field struct: the
emitted line is `\x7b"timestamp":"…","content":"…"\x7d` with both field
values JSON-string-escaped, fields in declaration order.  The decoder
parses exactly the grammar the encoder emits (serde's parser accepts
this grammar) and returns `none` on anything malformed.
-/

/-- serde_json's escaping of one character inside a JSON string:
`"` and `\` are escaped, the control characters `\x08 \t \n \x0c \r`
get their short escapes, every other control character below 0x20 is
emitted as `\u00XX` (lowercase hex), and all other characters are
emitted verbatim. -/
def escChar (c : Char) : List Char :=
  if c = '"' then ['\\', '"']
  else if c = '\\' then ['\\', '\\']
  else if c = '\x08' then ['\\', 'b']
  else if c = '\t' then ['\\', 't']
  else if c = '\n' then ['\\', 'n']
  else if c = '\x0c' then ['\\', 'f']
  else if c = '\r' then ['\\', 'r']
  else if c.toNat < 32 then
    ['\\', 'u', '0', '0', Nat.digitChar (c.toNat / 16), Nat.digitChar (c.toNat % 16)]
  else [c]

/-- JSON-string-escape a character sequence. -/
def escape (cs : List Char) : List Char := cs.flatMap escChar

/-- Value of one hex digit, as accepted in a `\uXXXX` escape. -/
def hexVal (c : Char) : Option Nat :=
  if '0' ≤ c ∧ c ≤ '9' then some (c.toNat - 48)
  else if 'a' ≤ c ∧ c ≤ 'f' then some (c.toNat - 87)
  else if 'A' ≤ c ∧ c ≤ 'F' then some (c.toNat - 55)
  else none

/-- Meaning of a single-character escape `\c` in a JSON string. -/
def unescSimple (c : Char) : Option Char :=
  if c = '"' then some '"'
  else if c = '\\' then some '\\'
  else if c = '/' then some '/'
  else if c = 'b' then some '\x08'
  else if c = 't' then some '\t'
  else if c = 'n' then some '\n'
  else if c = 'f' then some '\x0c'
  else if c = 'r' then some '\r'
  else none

/-- Parse the body of a JSON string up to and including its closing
quote, returning the decoded characters and the rest of the input.
Rejects unescaped control characters and bad escapes, as serde does. -/
def parseJsonStr : List Char → Option (List Char × List Char)
  | [] => none
  | c :: rest =>
    if c = '"' then some ([], rest)
    else if c = '\\' then
      match rest with
      | [] => none
      | d :: rest2 =>
        if d = 'u' then
          match rest2 with
          | h1 :: h2 :: h3 :: h4 :: rest3 => do
            let a ← hexVal h1
            let b ← hexVal h2
            let x ← hexVal h3
            let y ← hexVal h4
            let (s, r) ← parseJsonStr rest3
            pure (Char.ofNat (((a * 16 + b) * 16 + x) * 16 + y) :: s, r)
          | _ => none
        else do
          let e ← unescSimple d
          let (s, r) ← parseJsonStr rest2
          pure (e :: s, r)
    else if c.toNat < 32 then none
    else do
      let (s, r) ← parseJsonStr rest
      pure (c :: s, r)

/-- Drop an expected literal sequence from the head of the input. -/
def dropPfx (p s : List Char) : Option (List Char) :=
  if s.take p.length = p then some (s.drop p.length) else none

/-- Encode one entry as the single line `serde_json::to_string` produces
for `ClipboardEntry` (`lib.rs` line 97). -/
def encodeLine (e : ClipboardEntry) : List Char :=
  "\x7b\"timestamp\":\"".data ++ escape e.timestamp.data
    ++ "\",\"content\":\"".data ++ escape e.content.data ++ "\"\x7d".data

/-- Decode one persisted line back to an entry; `none` on a malformed
line (`serde_json::from_str(&line).ok()`, `lib.rs` line 114). -/
def decodeLine (cs : List Char) : Option ClipboardEntry := do
  let r1 ← dropPfx "\x7b\"timestamp\":\"".data cs
  let (ts, r2) ← parseJsonStr r1
  let r3 ← dropPfx ",\"content\":\"".data r2
  let (ct, r4) ← parseJsonStr r3
  if r4 = ['\x7d'] then pure ⟨String.mk ts, String.mk ct⟩ else none

/-!
## HistoryStore

The persisted file is modelled as `Option (List (List Char))`: `none` when
`clipboard_history.jsonl` is absent (or unopenable — `fs::File::open`
failing is treated the same way at line 106-109), otherwise the list of
its lines.  Each mutating operation takes a `Bool` oracle saying whether
the underlying I/O succeeds, mirroring `std::io::Result`.
-/

/-- The persisted `clipboard_history.jsonl`, as its list of lines. -/
abbrev FileState := Option (List (List Char))

/-- `load_history` (`lib.rs` lines 104-116): an absent/unreadable file
yields the empty history; otherwise each line is parsed and lines that
fail to parse are skipped (`filter_map(|line| from_str(&line).ok())`). -/
def load_history (fs : FileState) : List ClipboardEntry :=
  (fs.getD []).filterMap decodeLine

/-- The capacity bound of `save_entry` (`lib.rs` lines 86-89): if the
history exceeds `MAX_HISTORY_ENTRIES`, keep only the newest
`MAX_HISTORY_ENTRIES` entries (`split_off(len - MAX)`). -/
def truncateHistory (h : List ClipboardEntry) : List ClipboardEntry :=
  if h.length > MAX_HISTORY_ENTRIES then h.drop (h.length - MAX_HISTORY_ENTRIES) else h

/-- The pure read-modify part of `save_entry` (`lib.rs` lines 78-89):
drop every entry whose content equals the new entry's content
(`retain(|e| e.content != entry.content)`), push the new entry, and
apply the capacity bound. -/
def recordEntry (history : List ClipboardEntry) (e : ClipboardEntry) : List ClipboardEntry :=
  truncateHistory ((history.filter fun x => x.content != e.content) ++ [e])

/-- `save_entry` (`lib.rs` lines 75-102): load the current file, apply
`recordEntry`, open the file with `truncate(true)` (lines 91-95) and
write one line per entry (`writeln!`, line 98).  `openOk` models the
truncating open succeeding: if it fails, nothing was touched and the
previous file remains.  Once the open succeeded the old content is
gone; `writeOks` is the number of `writeln!` calls that succeed before
one fails (the `?` operator returns at the first failure), so a write
failure part-way through leaves the prefix written so far on disk and
reports an error. -/
def save_entry (fs : FileState) (e : ClipboardEntry) (openOk : Bool) (writeOks : Nat) :
    Bool × FileState :=
  if openOk then
    if writeOks ≥ ((recordEntry (load_history fs) e).map encodeLine).length then
      (true, some ((recordEntry (load_history fs) e).map encodeLine))
    else
      (false, some (((recordEntry (load_history fs) e).map encodeLine).take writeOks))
  else (false, fs)

/-- `clear_history` (`lib.rs` lines 118-124): if the file exists remove
it (`removeOk` is the oracle for `fs::remove_file`); if it does not
exist, do nothing and report success. -/
def clear_history (fs : FileState) (removeOk : Bool) : Bool × FileState :=
  match fs with
  | none => (true, none)
  | some l => if removeOk then (true, none) else (false, some l)

/-- `get_history` (`lib.rs` lines 127-132): load and reverse, newest
first. -/
def get_history (fs : FileState) : List ClipboardEntry :=
  (load_history fs).reverse

/-!
## Sampler (`start_clipboard_monitor`, `lib.rs` lines 186-231)
-/

/-- State carried by the monitor loop across ticks: the `last_content`
variable (line 195) together with the persisted file it writes through
`save_entry`. -/
structure MonitorState where
  last_content : Option String
  fs : FileState
deriving DecidableEq, Repr

/-- The `is_new` test of one tick (`lib.rs` lines 199-202). -/
def is_new (last : Option String) (current : String) : Bool :=
  match last with
  | some l => l != current
  | none => true

/-- One iteration of the monitor loop (`lib.rs` lines 197-229).
`readText` is `clipboard.get_text()` (`none` on failure, in which case
the tick does nothing); `now` is the timestamp; `openOk` and `writeOks`
are the I/O oracles passed to `save_entry`.  When the read text is new
and non-empty the entry is saved and — whether or not the save
succeeded — `last_content` is set to the text just read (line 224 sits
after the `save_entry` error check, outside its `else`).  Event
emission and the tray-menu rebuild are external effects without bearing
on this state. -/
def monitorTick (s : MonitorState) (readText : Option String) (now : String)
    (openOk : Bool) (writeOks : Nat) : MonitorState :=
  match readText with
  | none => s
  | some current =>
    if is_new s.last_content current && !(current == "") then
      { last_content := some current
        fs := (save_entry s.fs ⟨now, current⟩ openOk writeOks).2 }
    else s

/-!
## ControlFacade: `copy_to_clipboard` (`lib.rs` lines 134-139)
-/

/-- The persisted store together with the OS clipboard text. -/
structure SysState where
  fs : FileState
  clipboard : Option String
deriving DecidableEq, Repr

/-- `copy_to_clipboard` (`lib.rs` lines 134-139): set the clipboard text
and nothing else; `ok` models `Clipboard::new()`/`set_text` succeeding.
The function performs no file access. -/
def copy_to_clipboard (s : SysState) (content : String) (ok : Bool) :
    Except Unit Unit × SysState :=
  if ok then (Except.ok (), { s with clipboard := some content })
  else (Except.error (), s)

/-!
## Interleaving model for `save_entry` vs `clear_history`

`save_entry` runs on the monitor thread while `clear_history` can run
concurrently on a Tauri command/menu-event thread, and `lib.rs` contains
no lock, channel or other synchronization around either.  The file-level
steps of `save_entry` are modelled as two atomic actions — read the file
(lines 78-89) and rewrite it whole (lines 91-99) — and `clear_history`
as one delete action (line 121).  This is a coarsening of the real code
(the rewrite is many `writeln!` calls), so every behaviour exhibited
here is a behaviour of the code.
-/

/-- Atomic file-touching actions of a concurrent `save_entry` (load,
then write) and `clear_history` (delete). -/
inductive RwAct
  | recLoad
  | recWrite
  | clrDelete
deriving DecidableEq, Repr

/-- Shared file plus the `history` local the recording thread obtained
from its load. -/
structure RwState where
  file : FileState
  loaded : List (List Char)
deriving DecidableEq, Repr

/-- Effect of one atomic action, for a `save_entry` recording `e`. -/
def rwStep (e : ClipboardEntry) (s : RwState) : RwAct → RwState
  | RwAct.recLoad => { s with loaded := s.file.getD [] }
  | RwAct.recWrite =>
      { s with file := some ((recordEntry (s.loaded.filterMap decodeLine) e).map encodeLine) }
  | RwAct.clrDelete => { s with file := none }

/-- Run a schedule of actions from an initial file, returning the file
observable afterwards. -/
def rwRun (e : ClipboardEntry) (init : FileState) (acts : List RwAct) : FileState :=
  (acts.foldl (rwStep e) ⟨init, []⟩).file

/-- All interleavings of `save_entry`'s ordered two steps with
`clear_history`'s single step. -/
def rwSchedules : List (List RwAct) :=
  [[RwAct.recLoad, RwAct.recWrite, RwAct.clrDelete],
   [RwAct.recLoad, RwAct.clrDelete, RwAct.recWrite],
   [RwAct.clrDelete, RwAct.recLoad, RwAct.recWrite]]

/-- The outcomes the specification permits for a concurrent
`record`/`clear` pair: the pre-clear file, the cleared (absent) file, or
the file `record` produces on the cleared store.  A rewrite that brings
back the pre-clear entries after the clear ran is the "stale rewrite
resurrecting old data" the specification excludes. -/
def rwAllowed (init : FileState) (e : ClipboardEntry) : List FileState :=
  [init, none, some ((recordEntry [] e).map encodeLine)]

/-!
## Codec lemmas
-/

theorem mkData (s : String) : String.mk s.data = s := by
  cases s
  rfl

theorem hexVal_digitChar : ∀ t < 32,
    hexVal (Nat.digitChar (t / 16)) = some (t / 16) ∧
      hexVal (Nat.digitChar (t % 16)) = some (t % 16) := by
  decide

theorem parse_escChar (c : Char) (t : List Char) :
    parseJsonStr (escChar c ++ t) =
      (parseJsonStr t).map fun p => (c :: p.1, p.2) := by
  unfold escChar
  split_ifs with h1 h2 h3 h4 h5 h6 h7 h8
  · subst h1
    cases h : parseJsonStr t <;>
      (rw [parseJsonStr.eq_def]; simp [unescSimple, h])
  · subst h2
    cases h : parseJsonStr t <;>
      (rw [parseJsonStr.eq_def]; simp [unescSimple, h])
  · cases h : parseJsonStr t <;>
      (rw [parseJsonStr.eq_def]; simp [unescSimple, h, h3])
  · cases h : parseJsonStr t <;>
      (rw [parseJsonStr.eq_def]; simp [unescSimple, h, h4])
  · cases h : parseJsonStr t <;>
      (rw [parseJsonStr.eq_def]; simp [unescSimple, h, h5])
  · cases h : parseJsonStr t <;>
      (rw [parseJsonStr.eq_def]; simp [unescSimple, h, h6])
  · cases h : parseJsonStr t <;>
      (rw [parseJsonStr.eq_def]; simp [unescSimple, h, h7])
  · have harith : c.toNat / 16 * 16 + c.toNat % 16 = c.toNat := by
      omega
    have hzero : hexVal '0' = some 0 := by decide
    cases h : parseJsonStr t <;>
      (rw [parseJsonStr.eq_def];
        simp [hzero, (hexVal_digitChar _ h8).1, (hexVal_digitChar _ h8).2,
          h, harith, Char.ofNat_toNat])
  · cases h : parseJsonStr t <;>
      (rw [parseJsonStr.eq_def]; simp [h, h1, h2, h8])

theorem parse_escape (s rest : List Char) :
    parseJsonStr (escape s ++ '"' :: rest) = some (s, rest) := by
  induction s with
  | nil =>
    rw [escape, List.flatMap_nil, List.nil_append, parseJsonStr.eq_def]
    simp
  | cons c s ih =>
    have hc : escape (c :: s) = escChar c ++ escape s := by
      simp [escape]
    rw [hc, List.append_assoc, parse_escChar, ih]
    rfl

theorem dropPfx_append (p r : List Char) : dropPfx p (p ++ r) = some r := by
  simp [dropPfx, List.take_left, List.drop_left]

/-- Round trip of the line codec: shared by the theorems below. -/
theorem decode_encode (e : ClipboardEntry) : decodeLine (encodeLine e) = some e := by
  obtain ⟨ts, ct⟩ := e
  unfold decodeLine encodeLine
  dsimp only
  simp only [List.append_assoc]
  rw [dropPfx_append]
  simp only [Option.bind_eq_bind, Option.some_bind]
  rw [List.cons_append]
  rw [parse_escape]
  simp only [Option.bind_eq_bind, Option.some_bind]
  rw [dropPfx_append]
  simp only [Option.bind_eq_bind, Option.some_bind]
  rw [parse_escape]
  simp [mkData]

/-- The encoded line never contains a raw newline. -/
theorem newline_not_mem_escChar (c : Char) : '\n' ∉ escChar c := by
  unfold escChar
  split_ifs with h1 h2 h3 h4 h5 h6 h7 h8
  · decide
  · decide
  · decide
  · decide
  · decide
  · decide
  · decide
  · intro hmem
    have hd : ∀ t < 32, Nat.digitChar (t / 16) ≠ '\n' ∧ Nat.digitChar (t % 16) ≠ '\n' := by
      decide
    simp only [List.mem_cons, List.not_mem_nil, or_false] at hmem
    rcases hmem with h | h | h | h | h | h
    · exact absurd h (by decide)
    · exact absurd h (by decide)
    · exact absurd h (by decide)
    · exact absurd h (by decide)
    · exact (hd _ h8).1 h.symm
    · exact (hd _ h8).2 h.symm
  · intro hmem
    simp only [List.mem_cons, List.not_mem_nil, or_false] at hmem
    exact h5 hmem.symm

theorem newline_not_mem_escape (s : List Char) : '\n' ∉ escape s := by
  induction s with
  | nil => simp [escape]
  | cons c s ih =>
    have hc : escape (c :: s) = escChar c ++ escape s := by
      simp [escape]
    rw [hc]
    simp only [List.mem_append]
    rintro (h | h)
    · exact newline_not_mem_escChar c h
    · exact ih h

theorem newline_not_mem_encodeLine (e : ClipboardEntry) : '\n' ∉ encodeLine e := by
  unfold encodeLine
  intro h
  rcases List.mem_append.mp h with h1 | h1
  · rcases List.mem_append.mp h1 with h2 | h2
    · rcases List.mem_append.mp h2 with h3 | h3
      · rcases List.mem_append.mp h3 with h4 | h4
        · exact absurd h4 (by decide)
        · exact newline_not_mem_escape _ h4
      · exact absurd h3 (by decide)
    · exact newline_not_mem_escape _ h2
  · exact absurd h1 (by decide)

/-!
## Store lemmas
-/

theorem load_encode (l : List ClipboardEntry) :
    load_history (some (l.map encodeLine)) = l := by
  induction l with
  | nil => rfl
  | cons e l ih =>
    simp only [load_history, Option.getD_some, List.map_cons, List.filterMap_cons,
      decode_encode] at ih ⊢
    rw [ih]

/-- `recordEntry` always produces the dedup-filtered history with the new
entry at the end, minus a prefix of length `k` dropped by the capacity
bound. -/
theorem recordEntry_eq_drop (h : List ClipboardEntry) (e : ClipboardEntry) :
    ∃ k, k ≤ (h.filter fun x => x.content != e.content).length ∧
      recordEntry h e =
        ((h.filter fun x => x.content != e.content) ++ [e]).drop k := by
  unfold recordEntry truncateHistory
  by_cases hl :
      ((h.filter fun x => x.content != e.content) ++ [e]).length > MAX_HISTORY_ENTRIES
  · refine ⟨((h.filter fun x => x.content != e.content) ++ [e]).length -
      MAX_HISTORY_ENTRIES, ?_, by rw [if_pos hl]⟩
    have h100 : 0 < MAX_HISTORY_ENTRIES := by decide
    simp only [List.length_append, List.length_cons, List.length_nil] at hl ⊢
    omega
  · exact ⟨0, Nat.zero_le _, by rw [if_neg hl, List.drop_zero]⟩

theorem recordEntry_length_le (h : List ClipboardEntry) (e : ClipboardEntry) :
    (recordEntry h e).length ≤ MAX_HISTORY_ENTRIES := by
  unfold recordEntry truncateHistory
  split_ifs with hl
  · rw [List.length_drop]
    omega
  · omega

theorem notMem_filtered (h : List ClipboardEntry) (e : ClipboardEntry) :
    e.content ∉ (h.filter fun x => x.content != e.content).map fun x => x.content := by
  intro hm
  rcases List.mem_map.mp hm with ⟨x, hx, hcx⟩
  have hne := List.of_mem_filter hx
  rw [hcx] at hne
  simp at hne

theorem recordEntry_content_nodup (h : List ClipboardEntry) (e : ClipboardEntry)
    (hn : (h.map fun x => x.content).Nodup) :
    ((recordEntry h e).map fun x => x.content).Nodup := by
  obtain ⟨k, hk, heq⟩ := recordEntry_eq_drop h e
  have hsub : ((h.filter fun x => x.content != e.content).map fun x => x.content).Sublist
      (h.map fun x => x.content) := (List.filter_sublist h).map _
  have hfn := List.Nodup.sublist hsub hn
  have happ : (((h.filter fun x => x.content != e.content) ++ [e]).map
      fun x => x.content).Nodup := by
    simp only [List.map_append, List.map_cons, List.map_nil]
    rw [List.nodup_append]
    exact ⟨hfn, List.nodup_singleton _, by
      intro a ha hb
      simp only [List.mem_cons, List.not_mem_nil, or_false] at hb
      subst hb
      exact notMem_filtered h e ha⟩
  rw [heq, List.map_drop]
  exact List.Nodup.sublist (List.drop_sublist k _) happ

theorem recordEntry_filter_self (h : List ClipboardEntry) (e : ClipboardEntry) :
    (recordEntry h e).filter (fun x => x.content == e.content) = [e] := by
  obtain ⟨k, hk, heq⟩ := recordEntry_eq_drop h e
  rw [heq, List.drop_append_of_le_length hk, List.filter_append]
  have h1 : ((h.filter fun x => x.content != e.content).drop k).filter
      (fun x => x.content == e.content) = [] := by
    rw [List.filter_eq_nil_iff]
    intro a ha
    have := List.of_mem_filter (List.mem_of_mem_drop ha)
    simp only [bne_iff_ne, ne_eq] at this
    simp [this]
  rw [h1]
  simp

theorem recordEntry_getLast (h : List ClipboardEntry) (e : ClipboardEntry) :
    (recordEntry h e).getLast? = some e := by
  obtain ⟨k, hk, heq⟩ := recordEntry_eq_drop h e
  rw [heq, List.drop_append_of_le_length hk, List.getLast?_concat]

theorem recordEntry_append_of_notMem (h : List ClipboardEntry) (e : ClipboardEntry)
    (hnm : e.content ∉ h.map fun x => x.content)
    (hlen : h.length < MAX_HISTORY_ENTRIES) :
    recordEntry h e = h ++ [e] := by
  have hfil : (h.filter fun x => x.content != e.content) = h := by
    rw [List.filter_eq_self]
    intro x hx
    simp only [bne_iff_ne, ne_eq, decide_eq_true_eq]
    intro hc
    exact hnm (List.mem_map.mpr ⟨x, hx, hc⟩)
  unfold recordEntry truncateHistory
  rw [hfil, if_neg]
  simp only [List.length_append, List.length_cons, List.length_nil]
  omega

theorem foldl_recordEntry_distinct (vs : List ClipboardEntry) :
    ∀ acc : List ClipboardEntry,
      (((acc ++ vs).map fun x => x.content).Nodup) →
      (acc ++ vs).length ≤ MAX_HISTORY_ENTRIES →
      vs.foldl recordEntry acc = acc ++ vs := by
  induction vs with
  | nil => intro acc _ _; simp
  | cons v vs ih =>
    intro acc hnd hlen
    have hshift : acc ++ v :: vs = (acc ++ [v]) ++ vs := by simp
    have hnm : v.content ∉ acc.map fun x => x.content := by
      intro hm
      rw [List.map_append] at hnd
      rcases List.nodup_append.mp hnd with ⟨_, _, hdisj⟩
      exact hdisj hm (by simp)
    have hlt : acc.length < MAX_HISTORY_ENTRIES := by
      rw [List.length_append, List.length_cons] at hlen
      omega
    rw [List.foldl_cons, recordEntry_append_of_notMem acc v hnm hlt]
    rw [hshift] at hnd hlen
    rw [ih (acc ++ [v]) hnd hlen]
    simp

/-- Recording `MAX_HISTORY_ENTRIES + 1` pairwise-distinct contents into
the empty store keeps exactly the newest `MAX_HISTORY_ENTRIES` of them,
in order. -/
theorem foldl_recordEntry_overflow (vs : List ClipboardEntry)
    (hnd : (vs.map fun x => x.content).Nodup)
    (hlen : vs.length = MAX_HISTORY_ENTRIES + 1) :
    vs.foldl recordEntry [] = vs.drop 1 := by
  have hsplit : vs = vs.take MAX_HISTORY_ENTRIES ++ vs.drop MAX_HISTORY_ENTRIES :=
    (List.take_append_drop _ _).symm
  have hdlen : (vs.drop MAX_HISTORY_ENTRIES).length = 1 := by
    rw [List.length_drop, hlen]
    omega
  rcases List.length_eq_one.mp hdlen with ⟨v, hv⟩
  have htlen : (vs.take MAX_HISTORY_ENTRIES).length = MAX_HISTORY_ENTRIES := by
    rw [List.length_take, hlen]
    omega
  have hnd' : ((vs.take MAX_HISTORY_ENTRIES ++ [v]).map fun x => x.content).Nodup := by
    rw [← hv, ← hsplit]
    exact hnd
  have hfold : vs.foldl recordEntry [] =
      recordEntry (vs.take MAX_HISTORY_ENTRIES) v := by
    conv_lhs => rw [hsplit, hv]
    rw [List.foldl_append]
    simp only [List.foldl_cons, List.foldl_nil]
    have hid := foldl_recordEntry_distinct (vs.take MAX_HISTORY_ENTRIES) []
    simp only [List.nil_append] at hid
    rw [hid ?_ ?_]
    · rw [List.map_append] at hnd'
      exact (List.nodup_append.mp hnd').1
    · rw [htlen]
  have hnm : v.content ∉ (vs.take MAX_HISTORY_ENTRIES).map fun x => x.content := by
    rw [List.map_append] at hnd'
    rcases List.nodup_append.mp hnd' with ⟨_, _, hdisj⟩
    intro hm
    exact hdisj hm (by simp)
  have hfil : ((vs.take MAX_HISTORY_ENTRIES).filter fun x => x.content != v.content) =
      vs.take MAX_HISTORY_ENTRIES := by
    rw [List.filter_eq_self]
    intro x hx
    simp only [bne_iff_ne, ne_eq, decide_eq_true_eq]
    intro hc
    exact hnm (List.mem_map.mpr ⟨x, hx, hc⟩)
  rw [hfold]
  unfold recordEntry truncateHistory
  rw [hfil, if_pos]
  · have harith : (vs.take MAX_HISTORY_ENTRIES ++ [v]).length - MAX_HISTORY_ENTRIES = 1 := by
      simp only [List.length_append, List.length_cons, List.length_nil, htlen]
      omega
    rw [harith]
    conv_rhs => rw [hsplit, hv]
  · simp only [List.length_append, List.length_cons, List.length_nil, htlen]
    omega

theorem foldl_recordEntry_nodup (ops : List ClipboardEntry) :
    ∀ acc : List ClipboardEntry, ((acc.map fun x => x.content).Nodup) →
      (((ops.foldl recordEntry acc).map fun x => x.content).Nodup) := by
  induction ops with
  | nil => intro acc h; simpa using h
  | cons v ops ih =>
    intro acc h
    rw [List.foldl_cons]
    exact ih _ (recordEntry_content_nodup _ _ h)

theorem mem_recordEntry (h : List ClipboardEntry) (e : ClipboardEntry) :
    ∀ x ∈ recordEntry h e, x ∈ h ∨ x = e := by
  intro x hx
  obtain ⟨k, hk, heq⟩ := recordEntry_eq_drop h e
  rw [heq] at hx
  rcases List.mem_append.mp (List.mem_of_mem_drop hx) with hf | hl
  · exact Or.inl (List.mem_of_mem_filter hf)
  · simp only [List.mem_cons, List.not_mem_nil, or_false] at hl
    exact Or.inr hl

/-- Whatever `save_entry` leaves on disk — the previous file after a
failed open, a prefix of the rewritten lines after a failed write, or
the full rewrite — decodes only to entries that were already stored or
to the entry being recorded. -/
theorem mem_load_save_entry (fs : FileState) (e : ClipboardEntry) (openOk : Bool)
    (writeOks : Nat) :
    ∀ x ∈ load_history (save_entry fs e openOk writeOks).2,
      x ∈ load_history fs ∨ x = e := by
  intro x hx
  by_cases ho : openOk
  · by_cases hw : writeOks ≥ ((recordEntry (load_history fs) e).map encodeLine).length
    · simp only [save_entry, if_pos ho, if_pos hw] at hx
      rw [load_encode] at hx
      exact mem_recordEntry _ _ x hx
    · simp only [save_entry, if_pos ho, if_neg hw] at hx
      rw [← List.map_take, load_encode] at hx
      exact mem_recordEntry _ _ x (List.mem_of_mem_take hx)
  · simp only [save_entry, if_neg ho] at hx
    exact Or.inl hx

/-!
## Claims
-/

/-- C3: `record(content, t)` removes any existing entry with equal
content (exact match) and appends the single new entry at the end; the
concrete instance `[A@t1, B@t2]` + `A@t3` = `[B@t2, A@t3]`; and any
store reachable by records holds at most one entry per content. -/
theorem claim_c3_dedup_refresh :
    (∀ t1 t2 t3 A B : String, A ≠ B →
      recordEntry [⟨t1, A⟩, ⟨t2, B⟩] ⟨t3, A⟩ = [⟨t2, B⟩, ⟨t3, A⟩])
    ∧ (∀ (h : List ClipboardEntry) (e : ClipboardEntry),
        (recordEntry h e).filter (fun x => x.content == e.content) = [e]
        ∧ (recordEntry h e).getLast? = some e)
    ∧ (∀ ops : List ClipboardEntry,
        ((ops.foldl recordEntry []).map fun x => x.content).Nodup) := by
  refine ⟨?_, ?_, ?_⟩
  · intro t1 t2 t3 A B hAB
    have hBA : (B != A) = true := bne_iff_ne.mpr (Ne.symm hAB)
    unfold recordEntry truncateHistory
    simp [List.filter_cons, hBA, MAX_HISTORY_ENTRIES]
  · exact fun h e => ⟨recordEntry_filter_self h e, recordEntry_getLast h e⟩
  · exact fun ops => foldl_recordEntry_nodup ops [] (by simp)

theorem claim_c3_dedup_refresh_witness :
    recordEntry [⟨"t1", "a"⟩, ⟨"t2", "b"⟩] ⟨"t3", "a"⟩ = [⟨"t2", "b"⟩, ⟨"t3", "a"⟩] :=
  claim_c3_dedup_refresh.1 "t1" "t2" "t3" "a" "b" (by decide)

/-- C4: after every record the store holds at most `MAX_HISTORY_ENTRIES`
(100) entries, and recording 101 pairwise-distinct values into an empty
store keeps exactly the newest 100 in order, dropping the oldest. -/
theorem claim_c4_bounded_size :
    (∀ (h : List ClipboardEntry) (e : ClipboardEntry),
      (recordEntry h e).length ≤ MAX_HISTORY_ENTRIES)
    ∧ (∀ vs : List ClipboardEntry,
        ((vs.map fun x => x.content).Nodup) →
        vs.length = MAX_HISTORY_ENTRIES + 1 →
        vs.foldl recordEntry [] = vs.drop 1
          ∧ (vs.foldl recordEntry []).length = MAX_HISTORY_ENTRIES) := by
  refine ⟨recordEntry_length_le, ?_⟩
  intro vs hnd hlen
  have h1 := foldl_recordEntry_overflow vs hnd hlen
  refine ⟨h1, ?_⟩
  rw [h1, List.length_drop, hlen]
  omega

theorem claim_c4_bounded_size_witness :
    ((List.range 101).map fun i => (⟨Nat.repr i, Nat.repr i⟩ : ClipboardEntry)).foldl
        recordEntry [] =
      ((List.range 101).map fun i => (⟨Nat.repr i, Nat.repr i⟩ : ClipboardEntry)).drop 1 :=
  (claim_c4_bounded_size.2 _ (by decide) (by decide)).1

/-- C5: a successful `clear_history` leaves no persisted file at all
(`none`, not an empty file), and a `load_history` performed on the
resulting state returns the empty sequence, identical to a
never-initialized store. -/
theorem claim_c5_clear_then_load (fs : FileState) (removeOk : Bool)
    (hok : (clear_history fs removeOk).1 = true) :
    (clear_history fs removeOk).2 = none
    ∧ load_history (clear_history fs removeOk).2 = []
    ∧ load_history (clear_history fs removeOk).2 = load_history none := by
  cases fs with
  | none => exact ⟨rfl, rfl, rfl⟩
  | some l =>
    cases removeOk with
    | false => simp [clear_history] at hok
    | true => exact ⟨rfl, rfl, rfl⟩

theorem claim_c5_clear_then_load_witness :
    (clear_history (some [['x']]) true).1 = true
    ∧ (clear_history (some [['x']]) true).2 = none
    ∧ load_history (clear_history (some [['x']]) true).2 = [] :=
  ⟨rfl, (claim_c5_clear_then_load (some [['x']]) true rfl).1,
    (claim_c5_clear_then_load (some [['x']]) true rfl).2.1⟩

/-- C6: loading an absent/unreadable file yields the empty history, and
one malformed line among lines that decode to valid entries is silently
skipped, yielding exactly the valid entries in file order. -/
theorem claim_c6_corruption_tolerance :
    load_history none = []
    ∧ ∀ (l1 l2 : List ClipboardEntry) (bad : List Char), decodeLine bad = none →
        load_history (some (l1.map encodeLine ++ bad :: l2.map encodeLine)) = l1 ++ l2 := by
  refine ⟨rfl, ?_⟩
  intro l1 l2 bad hbad
  have hl1 := load_encode l1
  have hl2 := load_encode l2
  unfold load_history at hl1 hl2 ⊢
  simp only [Option.getD_some] at hl1 hl2 ⊢
  rw [List.filterMap_append, List.filterMap_cons, hbad, hl1, hl2]

theorem claim_c6_corruption_tolerance_witness :
    decodeLine "oops".data = none
    ∧ load_history (some ([(⟨"t1", "a"⟩ : ClipboardEntry)].map encodeLine
        ++ "oops".data :: [(⟨"t2", "b"⟩ : ClipboardEntry)].map encodeLine)) =
      [⟨"t1", "a"⟩, ⟨"t2", "b"⟩] :=
  ⟨by decide, claim_c6_corruption_tolerance.2 _ _ _ (by decide)⟩

/-- C8: the codec emits exactly one line per entry — no raw newline ever
appears in the encoded line, even when the content contains newlines —
and decoding an encoded line returns the original entry. -/
theorem claim_c8_codec_roundtrip (e : ClipboardEntry) :
    decodeLine (encodeLine e) = some e ∧ '\n' ∉ encodeLine e :=
  ⟨decode_encode e, newline_not_mem_encodeLine e⟩

/-- C9: `copy_to_clipboard` writes the clipboard and nothing else: the
persisted history and hence `get_history` are untouched, whether or not
the clipboard write succeeds. -/
theorem claim_c9_copy_frame (fs : FileState) (clip : Option String) (content : String)
    (ok : Bool) :
    (copy_to_clipboard ⟨fs, clip⟩ content ok).2.fs = fs
    ∧ get_history (copy_to_clipboard ⟨fs, clip⟩ content ok).2.fs = get_history fs
    ∧ (copy_to_clipboard ⟨fs, clip⟩ content true).2.clipboard = some content := by
  cases ok <;> exact ⟨rfl, rfl, rfl⟩

/-- C10: `clear_history` succeeds when the file is already absent, so
clearing a never-initialized store succeeds and a second clear right
after a successful first one succeeds as well. -/
theorem claim_c10_clear_idempotent :
    (∀ removeOk : Bool, clear_history none removeOk = (true, none))
    ∧ (∀ (fs : FileState) (rok1 rok2 : Bool),
        (clear_history fs rok1).1 = true →
        (clear_history (clear_history fs rok1).2 rok2).1 = true) := by
  constructor
  · intro rok
    rfl
  · intro fs rok1 rok2 h1
    cases fs with
    | none => rfl
    | some l =>
      cases rok1 with
      | false => simp [clear_history] at h1
      | true => rfl

theorem claim_c10_clear_idempotent_witness :
    (clear_history (some [['a']]) true).1 = true
    ∧ (clear_history (clear_history (some [['a']]) true).2 true).1 = true :=
  ⟨rfl, claim_c10_clear_idempotent.2 (some [['a']]) true true rfl⟩

/-- C7 counterexample: after `"x"` was recorded (remembered
last-content `"x"`, `"x"` on disk), a clipboard-clear tick (empty read)
is a no-op — and the subsequent re-copy of `"x"` is *also* a complete
no-op: the remembered last-content still equals `"x"`, so `is_new` is
false, no change is detected and nothing is recorded, contradicting the
claim's final conjunct that the re-copy "is still detected as a
change". -/
theorem claim_c7_counterexample :
    monitorTick ⟨some "x", some [encodeLine ⟨"t0", "x"⟩]⟩ (some "") "t1" true 1000 =
        ⟨some "x", some [encodeLine ⟨"t0", "x"⟩]⟩
    ∧ monitorTick ⟨some "x", some [encodeLine ⟨"t0", "x"⟩]⟩ (some "x") "t2" true 1000 =
        ⟨some "x", some [encodeLine ⟨"t0", "x"⟩]⟩ := by
  decide

/-- C7 amended: a tick that reads the empty string records nothing and
leaves the remembered last-content untouched, and non-emptiness of
every stored content is preserved by every tick; however, re-copying
the text that preceded a clipboard-clear is NOT detected as a change —
the remembered last-content still equals that text, so the tick is a
no-op and nothing is recorded. -/
theorem claim_c7_empty_never_recorded :
    (∀ (s : MonitorState) (t : String) (oK : Bool) (w : Nat),
      monitorTick s (some "") t oK w = s)
    ∧ (∀ (s : MonitorState) (r : Option String) (t : String) (oK : Bool) (w : Nat),
        (∀ e ∈ load_history s.fs, e.content ≠ "") →
        ∀ e ∈ load_history (monitorTick s r t oK w).fs, e.content ≠ "")
    ∧ (∀ (s : MonitorState) (current t : String) (oK : Bool) (w : Nat),
        s.last_content = some current → monitorTick s (some current) t oK w = s) := by
  refine ⟨?_, ?_, ?_⟩
  · intro s t oK w
    simp [monitorTick]
  · intro s r t oK w hinv
    cases r with
    | none => exact hinv
    | some current =>
      rw [monitorTick.eq_def]
      dsimp only
      split_ifs with hg
      · have hg' := hg
        simp only [Bool.and_eq_true] at hg'
        rcases hg' with ⟨_, hne'⟩
        have hcur : current ≠ "" := by
          rw [Bool.not_eq_true'] at hne'
          exact fun hc => by simp [hc] at hne'
        intro e he
        rcases mem_load_save_entry s.fs ⟨t, current⟩ oK w e he with hm | hm
        · exact hinv e hm
        · rw [hm]
          exact hcur
      · exact hinv
  · intro s current t oK w hlc
    rw [monitorTick.eq_def]
    dsimp only
    rw [hlc]
    rw [if_neg]
    simp [is_new]

theorem claim_c7_empty_never_recorded_witness :
    (∀ e ∈ load_history (monitorTick ⟨none, none⟩ (some "x") "t0" true 5).fs,
        e.content ≠ "")
    ∧ monitorTick ⟨some "x", none⟩ (some "x") "t1" true 5 = ⟨some "x", none⟩ :=
  ⟨claim_c7_empty_never_recorded.2.1 ⟨none, none⟩ (some "x") "t0" true 5
      (by simp [load_history]),
    claim_c7_empty_never_recorded.2.2 ⟨some "x", none⟩ "x" "t1" true 5 rfl⟩

/-- C1 counterexample: starting from a fresh monitor state, a tick that
reads `"a"` but whose `save_entry` fails at the truncating open
(nothing is persisted — the file stays `none`) still changes the
remembered last-content from `none` to `some "a"`; the claim says it
would be unchanged.  Moreover a later tick reading `"a"` again with
working I/O does not retry: the store still ends up empty. -/
theorem claim_c1_counterexample :
    (save_entry (none : FileState) ⟨"t0", "a"⟩ false 0).1 = false
    ∧ (monitorTick ⟨none, none⟩ (some "a") "t0" false 0).fs = none
    ∧ (monitorTick ⟨none, none⟩ (some "a") "t0" false 0).last_content ≠
        (⟨none, none⟩ : MonitorState).last_content
    ∧ monitorTick (monitorTick ⟨none, none⟩ (some "a") "t0" false 0) (some "a") "t1"
          true 1000 =
        monitorTick ⟨none, none⟩ (some "a") "t0" false 0 := by
  decide

/-- C1 amended: the remembered last-content is the last non-empty text
read that differed from the previously remembered value — the last
content for which a record was *attempted*.  It is updated whether or
not `save_entry` succeeds, and the same text read again on a later tick
is not retried. -/
theorem claim_c1_amended (s : MonitorState) (current t t2 : String) (oK1 oK2 : Bool)
    (w1 w2 : Nat)
    (hne : current ≠ "") (hnew : is_new s.last_content current = true) :
    (monitorTick s (some current) t oK1 w1).last_content = some current
    ∧ monitorTick (monitorTick s (some current) t oK1 w1) (some current) t2 oK2 w2 =
        monitorTick s (some current) t oK1 w1 := by
  have hbeq : (current == "") = false := by
    simp [hne]
  have hg : (is_new s.last_content current && !(current == "")) = true := by
    rw [hnew, hbeq]
    rfl
  have hlast : (monitorTick s (some current) t oK1 w1).last_content = some current := by
    rw [monitorTick.eq_def]
    dsimp only
    rw [if_pos hg]
  refine ⟨hlast, ?_⟩
  rw [monitorTick.eq_def]
  dsimp only
  rw [hlast]
  rw [if_neg]
  simp [is_new]

theorem claim_c1_amended_witness :
    (monitorTick ⟨none, none⟩ (some "a") "t0" false 0).last_content = some "a"
    ∧ monitorTick (monitorTick ⟨none, none⟩ (some "a") "t0" false 0) (some "a") "t1"
          true 7 =
        monitorTick ⟨none, none⟩ (some "a") "t0" false 0 :=
  ⟨(claim_c1_amended ⟨none, none⟩ "a" "t0" "t1" false true 0 7 (by decide) (by decide)).1,
    (claim_c1_amended ⟨none, none⟩ "a" "t0" "t1" false true 0 7 (by decide) (by decide)).2⟩

/-- C2 counterexample: the code has no lock around `save_entry` and
`clear_history`, so the interleaving in which the recording thread loads
the file, the clearing thread deletes it, and the recording thread then
rewrites the whole file is a possible schedule — and it leaves the file
holding the entry `a` that was cleared plus the new entry `b`, an
outcome that is neither the pre-clear file, nor absent, nor the file a
record on the cleared store produces. -/
theorem claim_c2_counterexample :
    [RwAct.recLoad, RwAct.clrDelete, RwAct.recWrite] ∈ rwSchedules
    ∧ rwRun ⟨"t2", "b"⟩ (some [encodeLine ⟨"t1", "a"⟩])
        [RwAct.recLoad, RwAct.clrDelete, RwAct.recWrite] ∉
      rwAllowed (some [encodeLine ⟨"t1", "a"⟩]) ⟨"t2", "b"⟩ := by
  decide

/-- C2 amended: when the two operations do not interleave (the record
runs entirely before or entirely after the clear) every outcome is in
the permitted set; but the unsynchronized interleaving load-delete-write
rewrites the file with the pre-clear history plus the new entry,
resurrecting the cleared data. -/
theorem claim_c2_amended (init : FileState) (e : ClipboardEntry) :
    rwRun e init [RwAct.recLoad, RwAct.recWrite, RwAct.clrDelete] ∈ rwAllowed init e
    ∧ rwRun e init [RwAct.clrDelete, RwAct.recLoad, RwAct.recWrite] ∈ rwAllowed init e
    ∧ rwRun e init [RwAct.recLoad, RwAct.clrDelete, RwAct.recWrite] =
        some ((recordEntry (load_history init) e).map encodeLine) := by
  refine ⟨?_, ?_, ?_⟩ <;>
    simp [rwRun, rwStep, rwAllowed, load_history]

end Banzai
